import Mathlib

/-!
Shallow embedding of the progression engine of `mytama/tama_rpg/app.py`.

Modelling conventions:
* Calendar dates are modelled as natural numbers (days since an arbitrary
  epoch).  The source stores ISO `YYYY-MM-DD` strings, for which string
  comparison, `min`, `ORDER BY date` and `timedelta(days=1)` arithmetic
  coincide with the corresponding operations on day numbers.
* Python integers are modelled as `Int` (they are arbitrary precision and may
  in principle go negative, so `Nat` would be unfaithful for stat arithmetic).
* The action log is the content of the `actions` table: a list of dated,
  typed entries.  The source always reads it ordered by date; every
  aggregate the engine derives from it (per-date grouping, earliest date,
  latest date per type) is order-independent and is embedded as such.
-/

/-- The six stat keys, in the canonical order of the source's `STAT_KEYS`. -/
inductive StatKey where
  | strength
  | stamina
  | intelligence
  | wealth
  | discipline
  | consistency
deriving DecidableEq, Repr, Fintype

open StatKey

/-- `STAT_KEYS` from the source. -/
def STAT_KEYS : List StatKey :=
  [strength, stamina, intelligence, wealth, discipline, consistency]

/-- `ACTION_TYPES` from the source: the five loggable action types. -/
def ACTION_TYPES : List StatKey :=
  [strength, stamina, intelligence, wealth, discipline]

/-- The `GAIN` dict from the source; `none` for keys not in the dict
(the source guards lookups with `if t in GAIN`). -/
def GAIN : StatKey → Option Int
  | .strength => some 5
  | .stamina => some 5
  | .intelligence => some 3
  | .wealth => some 7
  | .discipline => some 4
  | .consistency => none

/-- `EXP_PER_ACTION` from the source. -/
def EXP_PER_ACTION : Int := 10

/-- `CONSISTENCY_PER_DAY` from the source. -/
def CONSISTENCY_PER_DAY : Int := 2

/-- `need_exp_for_next(level) = 100 + level * 20` from the source. -/
def need_exp_for_next (level : Int) : Int := 100 + level * 20

/-- `streak_bonus_exp` from the source (the `>= 30` and `>= 10` branches both
return 30, exactly as written there). -/
def streak_bonus_exp (streak : Int) : Int :=
  if streak ≥ 30 then 30
  else if streak ≥ 10 then 30
  else if streak ≥ 5 then 15
  else if streak ≥ 2 then 5
  else 0

/-- One row of the `actions` table (the fields the engine reads). -/
structure ActionEntry where
  date : Nat
  kind : StatKey
deriving DecidableEq, Repr

/-- The `profile` row: level, exp, the six stats, streak and
`last_check_date`. -/
@[ext]
structure Profile where
  level : Int
  exp : Int
  strength : Int
  stamina : Int
  intelligence : Int
  wealth : Int
  discipline : Int
  consistency : Int
  streak : Int
  last_check_date : Nat
deriving DecidableEq, Repr

/-- Dictionary-style read access `p[t]` for a stat key. -/
def Profile.stat (p : Profile) : StatKey → Int
  | .strength => p.strength
  | .stamina => p.stamina
  | .intelligence => p.intelligence
  | .wealth => p.wealth
  | .discipline => p.discipline
  | .consistency => p.consistency

/-- Dictionary-style write access `p[t] = v` for a stat key. -/
def Profile.setStat (p : Profile) : StatKey → Int → Profile
  | .strength, v => { p with strength := v }
  | .stamina, v => { p with stamina := v }
  | .intelligence, v => { p with intelligence := v }
  | .wealth, v => { p with wealth := v }
  | .discipline, v => { p with discipline := v }
  | .consistency, v => { p with consistency := v }

/-- The types logged on day `d` (`by_date.get(d_str, [])` in the source). -/
def typesOn (log : List ActionEntry) (d : Nat) : List StatKey :=
  (log.filter (fun e => e.date == d)).map (fun e => e.kind)

/-- `min(by_date.keys())`: earliest date present in a (nonempty) log. -/
def startDate : List ActionEntry → Nat
  | [] => 0
  | e :: rest => rest.foldl (fun m a => Nat.min m a.date) e.date

/-- The last date a given type was logged anywhere in the log.  The source
scans the log in ascending date order and overwrites
`last_date_for[t] = d_str` on every type-`t` row, so the final value is the
maximum date among type-`t` rows; the incremental path computes the same
value with `ORDER BY date DESC LIMIT 1`.  Embedded order-independently as a
running maximum. -/
def lastDateFor (log : List ActionEntry) (t : StatKey) : Option Nat :=
  log.foldl
    (fun acc e =>
      if e.kind == t then
        some (match acc with
              | none => e.date
              | some m => Nat.max m e.date)
      else acc)
    none

/-- The inclusive day range `[s, s+1, ..., e]` (empty when `e < s`),
mirroring `while d <= end` stepping by one day. -/
def dayRange (s e : Nat) : List Nat := List.range' s (e + 1 - s)

/-- The level-up `while` loop, embedded with explicit fuel:
`while exp >= need(level): exp -= need(level); level += 1`.
Each iteration of the source loop removes `need(level) = 100 + 20*level ≥ 120`
experience (for `level ≥ 1`), so `exp.toNat` units of fuel always suffice;
`levelLoop_terminal` below proves the loop really reaches its exit
condition within that fuel. -/
def levelLoop : Nat → Int → Int → Int × Int
  | 0, level, e => (level, e)
  | fuel + 1, level, e =>
    if need_exp_for_next level ≤ e then
      levelLoop fuel (level + 1) (e - need_exp_for_next level)
    else (level, e)

/-- The normalization loop run on a `(level, exp)` pair. -/
def normalizeLevel (level e : Int) : Int × Int := levelLoop e.toNat level e

/-- Processing of a single action entry inside the day loop:
`if t in GAIN: p[t] += GAIN[t]; p["exp"] += EXP_PER_ACTION`. -/
def applyAction (p : Profile) (t : StatKey) : Profile :=
  match GAIN t with
  | some g => { p.setStat t (p.stat t + g) with exp := p.exp + EXP_PER_ACTION }
  | none => p

/-- One iteration of the source's day-walk (`while d <= end` body in
`recompute_profile_from_actions`): per-entry gains, then the
streak/consistency/bonus update, then the level-up loop. -/
def dayStep (log : List ActionEntry) (p : Profile) (d : Nat) : Profile :=
  let types := typesOn log d
  let p1 := types.foldl applyAction p
  let p2 :=
    if types.isEmpty then { p1 with streak := 0 }
    else
      let pa := { p1 with consistency := p1.consistency + CONSISTENCY_PER_DAY,
                          streak := p1.streak + 1 }
      { pa with exp := pa.exp + streak_bonus_exp pa.streak }
  let le := normalizeLevel p2.level p2.exp
  { p2 with level := le.1, exp := le.2 }

/-- One step of the decay loop (`for t in ACTION_TYPES` body): if the type
was ever logged and its last date is 7 or more days before today, subtract 2
from its stat, floored at 0.  `(cur_d - last_d).days >= 7` is
`last + 7 ≤ today` on day numbers. -/
def decayStep (log : List ActionEntry) (today : Nat) (p : Profile) (t : StatKey) :
    Profile :=
  match lastDateFor log t with
  | none => p
  | some lastD =>
      if lastD + 7 ≤ today then p.setStat t (max 0 (p.stat t - 2)) else p

/-- The full decay pass over the five action types (used both by the
recompute, lines 305-319, and by `apply_weekly_decay`, lines 350-362; the
two loops in the source are the same computation). -/
def decayPhase (log : List ActionEntry) (today : Nat) (p : Profile) : Profile :=
  ACTION_TYPES.foldl (decayStep log today) p

/-- The zero-state profile the recompute starts from (and returns for an
empty log): level 1, exp 0, all stats 0, streak 0, `last_check_date` =
today. -/
def initProfile (today : Nat) : Profile :=
  { level := 1, exp := 0, strength := 0, stamina := 0, intelligence := 0,
    wealth := 0, discipline := 0, consistency := 0, streak := 0,
    last_check_date := today }

/-- The day-walk portion of the recompute: fold `dayStep` over every day
from the earliest logged date through today. -/
def walkProfile (log : List ActionEntry) (today : Nat) : Profile :=
  (dayRange (startDate log) today).foldl (dayStep log) (initProfile today)

/-- `recompute_profile_from_actions`: empty log returns the zero state;
otherwise day-walk from the earliest logged date through today, then the
decay pass. -/
def recompute_profile_from_actions (log : List ActionEntry) (today : Nat) :
    Profile :=
  if log.isEmpty then initProfile today
  else decayPhase log today (walkProfile log today)

/-- `did_anything_on(d)`: does the log contain at least one entry dated `d`. -/
def did_anything_on (log : List ActionEntry) (d : Nat) : Bool :=
  log.any (fun e => e.date == d)

/-- One iteration of `handle_daily_check`'s catch-up loop: bump or reset the
streak depending on whether anything was logged that day. -/
def dailyStreakStep (log : List ActionEntry) (p : Profile) (d : Nat) : Profile :=
  if did_anything_on log d then { p with streak := p.streak + 1 }
  else { p with streak := 0 }

/-- `apply_weekly_decay(p, current_date)` from the source (its loop is the
same computation as the recompute's decay pass). -/
def apply_weekly_decay (log : List ActionEntry) (p : Profile) (current : Nat) :
    Profile :=
  decayPhase log current p

/-- `handle_daily_check`: return the profile unchanged if no day has passed;
otherwise walk the streak over the elapsed days, apply weekly decay, and
stamp `last_check_date`. -/
def handle_daily_check (log : List ActionEntry) (p : Profile) (current : Nat) :
    Profile :=
  if current ≤ p.last_check_date then p
  else
    let p1 := (dayRange (p.last_check_date + 1) current).foldl
      (dailyStreakStep log) p
    let p2 := apply_weekly_decay log p1 current
    { p2 with last_check_date := current }

/-- The class-label table of `compute_class_and_traits` (both dict literals
in the source are identical). -/
def classLabel : StatKey → String
  | .strength => "보디빌더"
  | .stamina => "러너"
  | .intelligence => "학자"
  | .wealth => "재력가"
  | .discipline => "현자"
  | .consistency => "맑은눈"

/-- `{k: p[k] for k in STAT_KEYS}.items()`: the six stats as an ordered
association list. -/
def statPairs (p : Profile) : List (StatKey × Int) :=
  STAT_KEYS.map (fun k => (k, p.stat k))

/-- `sorted(stats.items(), key=lambda kv: kv[1], reverse=True)`: Python's
sort is stable, and a stable descending sort keeps equal-valued entries in
their original (canonical `STAT_KEYS`) order; `List.insertionSort` with the
relation `b.2 ≤ a.2` is that stable descending sort. -/
def statRank (p : Profile) : List (StatKey × Int) :=
  (statPairs p).insertionSort (fun a b => b.2 ≤ a.2)

/-- The result bundle of `compute_class_and_traits`. -/
structure ClassResult where
  base_class : String
  trait : Option String
  title : Option String
  sorted_stats : List (StatKey × Int)
deriving DecidableEq, Repr

/-- The number of low bits of `m` beyond a 53-bit significand: halvings of
`m` until the result is below `2^53` (that is, `max 0 (bitlength m - 53)`).
Structural recursion on a fuel argument so that it evaluates in the kernel;
`fuel = m` always suffices since each step halves a positive number. -/
def dropBits : Nat → Nat → Nat
  | 0, _ => 0
  | fuel + 1, m => if m < 2 ^ 53 then 0 else dropBits fuel (m / 2) + 1

/-- Round a natural number to 53 significant bits, ties to even: the
significand rounding step of IEEE binary64.  `rnd53 m` is the integer value
of the double nearest to `m` (even tie-break), exact for `m < 2^53`. -/
def rnd53 (m : Nat) : Nat :=
  if m < 2 ^ 53 then m
  else
    let k := dropBits m m
    let q := m / 2 ^ k
    let r := m % 2 ^ k
    let half := 2 ^ (k - 1)
    if half < r ∨ (r = half ∧ q % 2 = 1) then (q + 1) * 2 ^ k else q * 2 ^ k

/-- Bit-exact model of Python's `int(n * 0.7)` for a nonnegative integer
`n`: the int is first converted to the nearest double (`rnd53 n`), the
literal `0.7` is the double `3152519739159347 / 2^52`, their exact product
`rnd53 n * 3152519739159347 / 2^52` is rounded to the nearest double
(the scale `2^-52` is exact, so only the significand `rnd53 n *
3152519739159347` is rounded), and `int` truncates.  E.g. `float07 10 = 7`
(10 * 0.7 is exactly 7.0) but `float07 90 = 62` (90 * 0.7 rounds to just
below 63), matching the source; exact `7 * n / 10` would wrongly give 63.
Caveat: for `n` at or beyond roughly `2^1024` the source raises
`OverflowError` converting the int to a double, while this model returns
the mathematically extended value; such stats would require a log of about
`10^307` entries. -/
def float07 (n : Nat) : Nat :=
  rnd53 (rnd53 n * 3152519739159347) / 2 ^ 52

/-- `compute_class_and_traits`.  The trait threshold `int(v1 * 0.7)` is
embedded bit-exactly by `float07` (see its docstring); the guard `v1 > 0`
short-circuits exactly as the source's `v1 > 0 and v2 >= int(v1*0.7)`, so
`Int.toNat` is taken only where `v1` is positive. -/
def compute_class_and_traits (p : Profile) : ClassResult :=
  let sorted := statRank p
  let t1 := sorted.getD 0 (StatKey.strength, 0)
  let t2 := sorted.getD 1 (StatKey.strength, 0)
  let t3 := sorted.getD 2 (StatKey.strength, 0)
  let base := classLabel t1.1
  let trait :=
    if 0 < t1.2 ∧ (float07 t1.2.toNat : Int) ≤ t2.2 then some (classLabel t2.1)
    else none
  let title :=
    if t1.2 - t3.2 ≤ 10 ∧ 0 < t1.2 then some "맑은눈(확장형)" else none
  { base_class := base, trait := trait, title := title, sorted_stats := sorted }

/-- Claim C5: for every today, the full recompute on an empty action log
returns exactly the zero-state profile (level 1, exp 0, all six stats 0,
streak 0, last-evaluated-date = today) rather than failing. -/
theorem c5_empty_log_zero_state (today : Nat) :
    recompute_profile_from_actions [] today =
      { level := 1, exp := 0, strength := 0, stamina := 0, intelligence := 0,
        wealth := 0, discipline := 0, consistency := 0, streak := 0,
        last_check_date := today } := rfl

/-- Claim C6: the streak-size experience bonus is 0 at streak 1, 5 on
[2,4], 15 on [5,9], and 30 for every streak ≥ 10; in particular it plateaus,
giving every streak ≥ 30 the same bonus as streak 10. -/
theorem c6_streak_bonus_table (s : Int) :
    (s = 1 → streak_bonus_exp s = 0) ∧
    (2 ≤ s → s ≤ 4 → streak_bonus_exp s = 5) ∧
    (5 ≤ s → s ≤ 9 → streak_bonus_exp s = 15) ∧
    (10 ≤ s → streak_bonus_exp s = 30) ∧
    (30 ≤ s → streak_bonus_exp s = streak_bonus_exp 10) := by
  unfold streak_bonus_exp
  refine ⟨?_, ?_, ?_, ?_, ?_⟩ <;> intros <;> split_ifs <;> omega

/-- Witness for C6 at concrete streak values 1, 3, 7, 10 and 45. -/
theorem c6_streak_bonus_table_witness :
    streak_bonus_exp 1 = 0 ∧ streak_bonus_exp 3 = 5 ∧
    streak_bonus_exp 7 = 15 ∧ streak_bonus_exp 10 = 30 ∧
    streak_bonus_exp 45 = streak_bonus_exp 10 :=
  ⟨(c6_streak_bonus_table 1).1 rfl,
   (c6_streak_bonus_table 3).2.1 (by decide) (by decide),
   (c6_streak_bonus_table 7).2.2.1 (by decide) (by decide),
   (c6_streak_bonus_table 10).2.2.2.1 (by decide),
   (c6_streak_bonus_table 45).2.2.2.2 (by decide)⟩

/-! ### Field-access helper lemmas -/

theorem stat_setStat (p : Profile) (k : StatKey) (v : Int) (k' : StatKey) :
    (p.setStat k v).stat k' = if k' = k then v else p.stat k' := by
  cases k <;> cases k' <;> simp [Profile.setStat, Profile.stat]

@[simp]
theorem setStat_level (p : Profile) (k : StatKey) (v : Int) :
    (p.setStat k v).level = p.level := by
  cases k <;> simp [Profile.setStat]

@[simp]
theorem setStat_exp (p : Profile) (k : StatKey) (v : Int) :
    (p.setStat k v).exp = p.exp := by
  cases k <;> simp [Profile.setStat]

@[simp]
theorem setStat_streak (p : Profile) (k : StatKey) (v : Int) :
    (p.setStat k v).streak = p.streak := by
  cases k <;> simp [Profile.setStat]

@[simp]
theorem setStat_last (p : Profile) (k : StatKey) (v : Int) :
    (p.setStat k v).last_check_date = p.last_check_date := by
  cases k <;> simp [Profile.setStat]

theorem setStat_consistency (p : Profile) (k : StatKey) (v : Int)
    (h : k ≠ StatKey.consistency) : (p.setStat k v).consistency = p.consistency := by
  cases k <;> simp_all [Profile.setStat]

theorem stat_mk (l e s st i w d c k : Int) (ld : Nat) (key : StatKey) :
    (Profile.mk l e s st i w d c k ld).stat key =
      match key with
      | .strength => s
      | .stamina => st
      | .intelligence => i
      | .wealth => w
      | .discipline => d
      | .consistency => c := by
  cases key <;> rfl

/-! ### Level-up loop lemmas -/

theorem levelLoop_level_le (fuel : Nat) :
    ∀ level e : Int, level ≤ (levelLoop fuel level e).1 := by
  induction fuel with
  | zero => intro level e; simp [levelLoop]
  | succ n ih =>
      intro level e
      simp only [levelLoop]
      split
      · exact le_trans (by omega) (ih (level + 1) _)
      · simp

theorem levelLoop_exp_nonneg (fuel : Nat) :
    ∀ level e : Int, 0 ≤ e → 0 ≤ (levelLoop fuel level e).2 := by
  induction fuel with
  | zero => intro level e h; simpa [levelLoop] using h
  | succ n ih =>
      intro level e h
      simp only [levelLoop]
      split
      · next hc => exact ih (level + 1) _ (by omega)
      · simpa

theorem levelLoop_terminal (fuel : Nat) :
    ∀ level e : Int, 1 ≤ level → e.toNat ≤ fuel →
      (levelLoop fuel level e).2 < need_exp_for_next (levelLoop fuel level e).1 := by
  induction fuel with
  | zero =>
      intro level e hl hf
      simp only [levelLoop]
      unfold need_exp_for_next
      omega
  | succ n ih =>
      intro level e hl hf
      simp only [levelLoop]
      split
      · next hc =>
          refine ih (level + 1) (e - need_exp_for_next level) (by omega) ?_
          unfold need_exp_for_next at hc ⊢
          omega
      · next hc => unfold need_exp_for_next at hc ⊢; omega

theorem levelLoop_fuel_irrel (fuel1 : Nat) :
    ∀ fuel2 : Nat, ∀ level e : Int, 1 ≤ level → e.toNat ≤ fuel1 → e.toNat ≤ fuel2 →
      levelLoop fuel1 level e = levelLoop fuel2 level e := by
  induction fuel1 with
  | zero =>
      intro fuel2 level e hl h1 h2
      cases fuel2 with
      | zero => rfl
      | succ m =>
          simp only [levelLoop]
          rw [if_neg]
          unfold need_exp_for_next
          omega
  | succ n ih =>
      intro fuel2 level e hl h1 h2
      cases fuel2 with
      | zero =>
          simp only [levelLoop]
          rw [if_neg]
          unfold need_exp_for_next
          omega
      | succ m =>
          simp only [levelLoop]
          split
          · next hc =>
              refine ih m (level + 1) (e - need_exp_for_next level) (by omega) ?_ ?_ <;>
                (unfold need_exp_for_next at hc ⊢; omega)
          · rfl

theorem normalizeLevel_unfold (level e : Int) (hl : 1 ≤ level) :
    normalizeLevel level e =
      if need_exp_for_next level ≤ e then
        normalizeLevel (level + 1) (e - need_exp_for_next level)
      else (level, e) := by
  unfold normalizeLevel
  split
  · next hc =>
      have h120 : (120 : Int) ≤ e := by unfold need_exp_for_next at hc; omega
      obtain ⟨k, hk⟩ : ∃ k, e.toNat = k + 1 := ⟨e.toNat - 1, by omega⟩
      rw [hk]
      simp only [levelLoop, if_pos hc]
      refine levelLoop_fuel_irrel k _ (level + 1) _ (by omega) ?_ ?_ <;>
        (unfold need_exp_for_next at hc ⊢; omega)
  · next hc =>
      cases hn : e.toNat with
      | zero => simp [levelLoop]
      | succ m => simp [levelLoop, if_neg hc]

theorem normalizeLevel_of_lt (level e : Int) (hl : 1 ≤ level)
    (h : e < need_exp_for_next level) : normalizeLevel level e = (level, e) := by
  rw [normalizeLevel_unfold level e hl, if_neg (by omega)]

theorem normalizeLevel_level_le (level e : Int) :
    level ≤ (normalizeLevel level e).1 :=
  levelLoop_level_le _ level e

theorem normalizeLevel_exp_nonneg (level e : Int) (h : 0 ≤ e) :
    0 ≤ (normalizeLevel level e).2 :=
  levelLoop_exp_nonneg _ level e h

theorem normalizeLevel_terminal (level e : Int) (hl : 1 ≤ level) :
    (normalizeLevel level e).2 < need_exp_for_next (normalizeLevel level e).1 :=
  levelLoop_terminal _ level e hl (le_refl _)

/-! ### Last-logged-date lemmas -/

/-- Specification-side predicate: decay applies to type `t` (it was logged,
and its most recent date is 7 or more days before today). -/
def decayDue (log : List ActionEntry) (today : Nat) (t : StatKey) : Bool :=
  match lastDateFor log t with
  | none => false
  | some lastD => decide (lastD + 7 ≤ today)

theorem lastDateFor_go_none (t : StatKey) (log : List ActionEntry) :
    ∀ acc : Option Nat,
      log.foldl
          (fun acc e =>
            if e.kind == t then
              some (match acc with
                    | none => e.date
                    | some m => Nat.max m e.date)
            else acc) acc = none ↔
        acc = none ∧ ∀ e ∈ log, e.kind ≠ t := by
  induction log with
  | nil => intro acc; simp
  | cons e rest ih =>
      intro acc
      rw [List.foldl_cons, ih]
      by_cases hk : e.kind = t
      · simp [hk]
      · simp [hk]

theorem lastDateFor_none_iff (log : List ActionEntry) (t : StatKey) :
    lastDateFor log t = none ↔ ∀ e ∈ log, e.kind ≠ t := by
  unfold lastDateFor
  rw [lastDateFor_go_none t log none]
  simp

theorem lastDateFor_go_some (t : StatKey) (log : List ActionEntry) :
    ∀ (acc : Option Nat) (m : Nat),
      log.foldl
          (fun acc e =>
            if e.kind == t then
              some (match acc with
                    | none => e.date
                    | some m => Nat.max m e.date)
            else acc) acc = some m →
        (acc = some m ∨ ∃ e ∈ log, e.kind = t ∧ e.date = m) ∧
          (∀ e ∈ log, e.kind = t → e.date ≤ m) ∧
          (∀ k, acc = some k → k ≤ m) := by
  induction log with
  | nil =>
      intro acc m h
      simp only [List.foldl_nil] at h
      subst h
      refine ⟨Or.inl rfl, by simp, ?_⟩
      intro k hk
      injection hk with hk
      omega
  | cons e rest ih =>
      intro acc m h
      rw [List.foldl_cons] at h
      by_cases hk : e.kind = t
      · cases acc with
        | none =>
            simp only [hk, beq_self_eq_true, if_true] at h
            obtain ⟨h1, h2, h3⟩ := ih (some e.date) m h
            have hedm : e.date ≤ m := h3 _ rfl
            refine ⟨?_, ?_, by simp⟩
            · right
              rcases h1 with h1 | ⟨e', he', hkind, hdate⟩
              · exact ⟨e, by simp, hk, Option.some.inj h1⟩
              · exact ⟨e', by simp [he'], hkind, hdate⟩
            · intro e' he' hk'
              rcases List.mem_cons.mp he' with rfl | hmem
              · exact hedm
              · exact h2 e' hmem hk'
        | some k0 =>
            simp only [hk, beq_self_eq_true, if_true] at h
            obtain ⟨h1, h2, h3⟩ := ih (some (Nat.max k0 e.date)) m h
            have hmax : Nat.max k0 e.date ≤ m := h3 _ rfl
            refine ⟨?_, ?_, ?_⟩
            · rcases h1 with h1 | ⟨e', he', hkind, hdate⟩
              · have hm := Option.some.inj h1
                rcases le_total k0 e.date with hc | hc
                · have hmx : Nat.max k0 e.date = e.date := Nat.max_eq_right hc
                  exact Or.inr ⟨e, by simp, hk, by rw [hmx] at hm; exact hm⟩
                · have hmx : Nat.max k0 e.date = k0 := Nat.max_eq_left hc
                  exact Or.inl (by rw [hmx] at hm; rw [hm])
              · exact Or.inr ⟨e', by simp [he'], hkind, hdate⟩
            · intro e' he' hk'
              rcases List.mem_cons.mp he' with rfl | hmem
              · exact le_trans (Nat.le_max_right k0 e'.date) hmax
              · exact h2 e' hmem hk'
            · intro k hkk
              injection hkk with hkk
              exact hkk ▸ le_trans (Nat.le_max_left k0 e.date) hmax
      · have hbeq : (e.kind == t) = false := by simp [hk]
        simp only [hbeq, if_false] at h
        obtain ⟨h1, h2, h3⟩ := ih acc m h
        refine ⟨?_, ?_, h3⟩
        · rcases h1 with h1 | ⟨e', he', hkind, hdate⟩
          · exact Or.inl h1
          · exact Or.inr ⟨e', by simp [he'], hkind, hdate⟩
        · intro e' he' hk'
          rcases List.mem_cons.mp he' with rfl | hmem
          · exact absurd hk' hk
          · exact h2 e' hmem hk'

theorem lastDateFor_spec (log : List ActionEntry) (t : StatKey) (m : Nat)
    (h : lastDateFor log t = some m) :
    (∃ e ∈ log, e.kind = t ∧ e.date = m) ∧
      ∀ e ∈ log, e.kind = t → e.date ≤ m := by
  obtain ⟨h1, h2, _⟩ := lastDateFor_go_some t log none m h
  rcases h1 with h1 | h1
  · cases h1
  · exact ⟨h1, h2⟩

/-! ### Decay-pass characterization -/

theorem stat_decayStep (log : List ActionEntry) (today : Nat) (p : Profile)
    (t k : StatKey) :
    (decayStep log today p t).stat k =
      if k = t ∧ decayDue log today t = true then max 0 (p.stat k - 2)
      else p.stat k := by
  unfold decayStep decayDue
  cases h : lastDateFor log t with
  | none => simp
  | some ld =>
      by_cases hle : ld + 7 ≤ today <;> by_cases hkt : k = t <;>
        simp [hle, hkt, stat_setStat]

theorem stat_decayFold (log : List ActionEntry) (today : Nat) :
    ∀ (ts : List StatKey) (p : Profile) (k : StatKey), ts.Nodup →
      (ts.foldl (decayStep log today) p).stat k =
        if k ∈ ts ∧ decayDue log today k = true then max 0 (p.stat k - 2)
        else p.stat k := by
  intro ts
  induction ts with
  | nil => intro p k _; simp
  | cons t' ts ih =>
      intro p k hnd
      rw [List.foldl_cons, ih _ _ (List.nodup_cons.mp hnd).2]
      by_cases hker : k = t'
      · subst hker
        have hknot : k ∉ ts := (List.nodup_cons.mp hnd).1
        rw [stat_decayStep]
        by_cases hdue : decayDue log today k = true
        · simp [hknot, hdue]
        · simp [hknot, hdue]
      · rw [stat_decayStep]
        simp only [hker, false_and, if_false]
        by_cases hmem : k ∈ ts
        · simp [hmem, hker]
        · simp [hmem, hker]

theorem stat_decayPhase (log : List ActionEntry) (today : Nat) (p : Profile)
    (k : StatKey) :
    (decayPhase log today p).stat k =
      if k ∈ ACTION_TYPES ∧ decayDue log today k = true
      then max 0 (p.stat k - 2) else p.stat k :=
  stat_decayFold log today ACTION_TYPES p k (by decide)

/-- The concrete log of claim C2: a single `strength` entry dated 10 days
before "today" (= day 10). -/
def c2Log : List ActionEntry := [{ date := 0, kind := strength }]

/-- Claim C2: after the day-walk, a type's stat is decremented by 2 (floored
at 0) exactly when the type is one of the five action types, has been logged
somewhere in the log, and its most recent logged date is 7 or more days
before today; `lastDateFor` is `none` exactly for never-logged types (which
are therefore never decayed), and when it is `some m`, `m` is the most
recent date the type was logged.  Concretely, a single strength entry 10
days before today yields final strength 3 (5 gained, 2 decayed) and leaves
every other stat at its walk value. -/
theorem c2_weekly_decay :
    (∀ (log : List ActionEntry) (today : Nat) (p : Profile) (k : StatKey),
      (decayPhase log today p).stat k =
        if k ∈ ACTION_TYPES ∧ decayDue log today k = true
        then max 0 (p.stat k - 2) else p.stat k) ∧
    (∀ (log : List ActionEntry) (t : StatKey),
      lastDateFor log t = none ↔ ∀ e ∈ log, e.kind ≠ t) ∧
    (∀ (log : List ActionEntry) (t : StatKey) (m : Nat),
      lastDateFor log t = some m →
        (∃ e ∈ log, e.kind = t ∧ e.date = m) ∧
          ∀ e ∈ log, e.kind = t → e.date ≤ m) ∧
    (recompute_profile_from_actions c2Log 10).strength = 3 ∧
    (recompute_profile_from_actions c2Log 10).stamina = 0 ∧
    (recompute_profile_from_actions c2Log 10).intelligence = 0 ∧
    (recompute_profile_from_actions c2Log 10).wealth = 0 ∧
    (recompute_profile_from_actions c2Log 10).discipline = 0 ∧
    (recompute_profile_from_actions c2Log 10).consistency = 2 :=
  ⟨stat_decayPhase, lastDateFor_none_iff, lastDateFor_spec,
   by decide, by decide, by decide, by decide, by decide, by decide⟩

/-- Witness for C2: the `lastDateFor` specification applied at the concrete
log of the decay example. -/
theorem c2_weekly_decay_witness :
    (∃ e ∈ c2Log, e.kind = strength ∧ e.date = 0) ∧
      ∀ e ∈ c2Log, e.kind = strength → e.date ≤ 0 :=
  c2_weekly_decay.2.2.1 c2Log strength 0 (by decide)

/-! ### Gains-phase field lemmas -/

@[simp]
theorem applyAction_level (p : Profile) (t : StatKey) :
    (applyAction p t).level = p.level := by
  cases t <;> simp [applyAction, GAIN]

@[simp]
theorem applyAction_streak (p : Profile) (t : StatKey) :
    (applyAction p t).streak = p.streak := by
  cases t <;> simp [applyAction, GAIN]

@[simp]
theorem applyAction_consistency (p : Profile) (t : StatKey) :
    (applyAction p t).consistency = p.consistency := by
  cases t <;> simp [applyAction, GAIN, Profile.setStat]

@[simp]
theorem applyAction_last (p : Profile) (t : StatKey) :
    (applyAction p t).last_check_date = p.last_check_date := by
  cases t <;> simp [applyAction, GAIN]

theorem applyAction_exp_ge (p : Profile) (t : StatKey) :
    p.exp ≤ (applyAction p t).exp := by
  cases t <;> simp [applyAction, GAIN, EXP_PER_ACTION]

theorem applyAction_stat_ge (p : Profile) (t k : StatKey) :
    p.stat k ≤ (applyAction p t).stat k := by
  cases t <;> cases k <;>
    simp [applyAction, GAIN, Profile.setStat, Profile.stat]

theorem foldActs_level (ts : List StatKey) :
    ∀ p : Profile, (ts.foldl applyAction p).level = p.level := by
  induction ts with
  | nil => intro p; rfl
  | cons t ts ih => intro p; rw [List.foldl_cons, ih, applyAction_level]

theorem foldActs_streak (ts : List StatKey) :
    ∀ p : Profile, (ts.foldl applyAction p).streak = p.streak := by
  induction ts with
  | nil => intro p; rfl
  | cons t ts ih => intro p; rw [List.foldl_cons, ih, applyAction_streak]

theorem foldActs_consistency (ts : List StatKey) :
    ∀ p : Profile, (ts.foldl applyAction p).consistency = p.consistency := by
  induction ts with
  | nil => intro p; rfl
  | cons t ts ih => intro p; rw [List.foldl_cons, ih, applyAction_consistency]

theorem foldActs_last (ts : List StatKey) :
    ∀ p : Profile, (ts.foldl applyAction p).last_check_date = p.last_check_date := by
  induction ts with
  | nil => intro p; rfl
  | cons t ts ih => intro p; rw [List.foldl_cons, ih, applyAction_last]

theorem foldActs_exp_ge (ts : List StatKey) :
    ∀ p : Profile, p.exp ≤ (ts.foldl applyAction p).exp := by
  induction ts with
  | nil => intro p; exact le_refl _
  | cons t ts ih =>
      intro p
      exact le_trans (applyAction_exp_ge p t) (ih (applyAction p t))

theorem foldActs_stat_ge (ts : List StatKey) :
    ∀ (p : Profile) (k : StatKey), p.stat k ≤ (ts.foldl applyAction p).stat k := by
  induction ts with
  | nil => intro p k; exact le_refl _
  | cons t ts ih =>
      intro p k
      exact le_trans (applyAction_stat_ge p t k) (ih (applyAction p t) k)

/-! ### Record-update stat lemmas -/

@[simp]
theorem stat_update_streak (p : Profile) (v : Int) (k : StatKey) :
    ({ p with streak := v } : Profile).stat k = p.stat k := by
  cases k <;> rfl

@[simp]
theorem stat_update_level_exp (p : Profile) (l e : Int) (k : StatKey) :
    ({ p with level := l, exp := e } : Profile).stat k = p.stat k := by
  cases k <;> rfl

@[simp]
theorem stat_update_exp (p : Profile) (e : Int) (k : StatKey) :
    ({ p with exp := e } : Profile).stat k = p.stat k := by
  cases k <;> rfl

theorem stat_update_cons_streak (p : Profile) (c s : Int) (k : StatKey) :
    ({ p with consistency := c, streak := s } : Profile).stat k =
      if k = StatKey.consistency then c else p.stat k := by
  cases k <;> simp [Profile.stat]

theorem streak_bonus_nonneg (s : Int) : 0 ≤ streak_bonus_exp s := by
  unfold streak_bonus_exp
  split_ifs <;> omega

/-! ### The walk invariant (claim C3 machinery) -/

/-- The profile invariant of §3 of the spec. -/
def InvP (p : Profile) : Prop :=
  1 ≤ p.level ∧ 0 ≤ p.exp ∧ p.exp < need_exp_for_next p.level ∧
    (∀ k, 0 ≤ p.stat k) ∧ 0 ≤ p.streak

theorem dayStep_inv (log : List ActionEntry) (d : Nat) (p : Profile)
    (h : InvP p) : InvP (dayStep log p d) := by
  obtain ⟨h1, h2, h3, h4, h5⟩ := h
  have hfl := foldActs_level (typesOn log d) p
  have hfe := foldActs_exp_ge (typesOn log d) p
  have hfs := fun k => foldActs_stat_ge (typesOn log d) p k
  have hfst := foldActs_streak (typesOn log d) p
  by_cases hemp : (typesOn log d).isEmpty = true
  · simp only [dayStep]
    rw [if_pos hemp]
    refine ⟨?_, ?_, ?_, ?_, ?_⟩
    · refine le_trans ?_ (normalizeLevel_level_le _ _)
      show (1 : Int) ≤ (List.foldl applyAction p (typesOn log d)).level
      omega
    · refine normalizeLevel_exp_nonneg _ _ ?_
      show (0 : Int) ≤ (List.foldl applyAction p (typesOn log d)).exp
      omega
    · refine normalizeLevel_terminal _ _ ?_
      show (1 : Int) ≤ (List.foldl applyAction p (typesOn log d)).level
      omega
    · intro k
      have hk1 := hfs k
      have hk2 := h4 k
      cases k <;> simp [Profile.stat] at hk1 hk2 ⊢ <;> omega
    · show (0 : Int) ≤ 0
      omega
  · simp only [dayStep]
    rw [if_neg hemp]
    refine ⟨?_, ?_, ?_, ?_, ?_⟩
    · refine le_trans ?_ (normalizeLevel_level_le _ _)
      show (1 : Int) ≤ (List.foldl applyAction p (typesOn log d)).level
      omega
    · refine normalizeLevel_exp_nonneg _ _ ?_
      have hb := streak_bonus_nonneg
        (((typesOn log d).foldl applyAction p).streak + 1)
      show 0 ≤ (List.foldl applyAction p (typesOn log d)).exp +
        streak_bonus_exp ((List.foldl applyAction p (typesOn log d)).streak + 1)
      omega
    · refine normalizeLevel_terminal _ _ ?_
      show (1 : Int) ≤ (List.foldl applyAction p (typesOn log d)).level
      omega
    · intro k
      have hk1 := hfs k
      have hk2 := h4 k
      cases k <;> simp [Profile.stat, CONSISTENCY_PER_DAY] at hk1 hk2 ⊢ <;> omega
    · show 0 ≤ (List.foldl applyAction p (typesOn log d)).streak + 1
      omega

theorem walk_inv (log : List ActionEntry) (days : List Nat) :
    ∀ p : Profile, InvP p → InvP (days.foldl (dayStep log) p) := by
  induction days with
  | nil => intro p h; exact h
  | cons d days ih => intro p h; exact ih _ (dayStep_inv log d p h)

/-! ### Decay-pass frame lemmas -/

@[simp]
theorem decayStep_level (log : List ActionEntry) (today : Nat) (p : Profile)
    (t : StatKey) : (decayStep log today p t).level = p.level := by
  unfold decayStep
  cases lastDateFor log t with
  | none => rfl
  | some ld => by_cases h : ld + 7 ≤ today <;> simp [h]

@[simp]
theorem decayStep_exp (log : List ActionEntry) (today : Nat) (p : Profile)
    (t : StatKey) : (decayStep log today p t).exp = p.exp := by
  unfold decayStep
  cases lastDateFor log t with
  | none => rfl
  | some ld => by_cases h : ld + 7 ≤ today <;> simp [h]

@[simp]
theorem decayStep_streak (log : List ActionEntry) (today : Nat) (p : Profile)
    (t : StatKey) : (decayStep log today p t).streak = p.streak := by
  unfold decayStep
  cases lastDateFor log t with
  | none => rfl
  | some ld => by_cases h : ld + 7 ≤ today <;> simp [h]

@[simp]
theorem decayStep_last (log : List ActionEntry) (today : Nat) (p : Profile)
    (t : StatKey) : (decayStep log today p t).last_check_date = p.last_check_date := by
  unfold decayStep
  cases lastDateFor log t with
  | none => rfl
  | some ld => by_cases h : ld + 7 ≤ today <;> simp [h]

theorem decayStep_consistency (log : List ActionEntry) (today : Nat)
    (p : Profile) (t : StatKey) (h : t ≠ StatKey.consistency) :
    (decayStep log today p t).consistency = p.consistency := by
  unfold decayStep
  cases lastDateFor log t with
  | none => rfl
  | some ld =>
      by_cases hle : ld + 7 ≤ today <;> simp [hle, setStat_consistency _ _ _ h]

theorem decayFold_level (log : List ActionEntry) (today : Nat)
    (ts : List StatKey) : ∀ p : Profile,
    (ts.foldl (decayStep log today) p).level = p.level := by
  induction ts with
  | nil => intro p; rfl
  | cons t ts ih => intro p; rw [List.foldl_cons, ih, decayStep_level]

theorem decayFold_exp (log : List ActionEntry) (today : Nat)
    (ts : List StatKey) : ∀ p : Profile,
    (ts.foldl (decayStep log today) p).exp = p.exp := by
  induction ts with
  | nil => intro p; rfl
  | cons t ts ih => intro p; rw [List.foldl_cons, ih, decayStep_exp]

theorem decayFold_streak (log : List ActionEntry) (today : Nat)
    (ts : List StatKey) : ∀ p : Profile,
    (ts.foldl (decayStep log today) p).streak = p.streak := by
  induction ts with
  | nil => intro p; rfl
  | cons t ts ih => intro p; rw [List.foldl_cons, ih, decayStep_streak]

theorem decayFold_last (log : List ActionEntry) (today : Nat)
    (ts : List StatKey) : ∀ p : Profile,
    (ts.foldl (decayStep log today) p).last_check_date = p.last_check_date := by
  induction ts with
  | nil => intro p; rfl
  | cons t ts ih => intro p; rw [List.foldl_cons, ih, decayStep_last]

theorem decayFold_consistency (log : List ActionEntry) (today : Nat)
    (ts : List StatKey) (hts : ∀ t ∈ ts, t ≠ StatKey.consistency) :
    ∀ p : Profile, (ts.foldl (decayStep log today) p).consistency = p.consistency := by
  induction ts with
  | nil => intro p; rfl
  | cons t ts ih =>
      intro p
      rw [List.foldl_cons, ih (fun a ha => hts a (List.mem_cons_of_mem t ha)),
        decayStep_consistency _ _ _ _ (hts t (List.mem_cons_self t ts))]

theorem initProfile_inv (today : Nat) : InvP (initProfile today) := by
  refine ⟨by norm_num [initProfile], by norm_num [initProfile],
    by norm_num [initProfile, need_exp_for_next], ?_, by norm_num [initProfile]⟩
  intro k
  cases k <;> simp [initProfile, Profile.stat]

/-- Claim C3: for every action log and every today, the recomputed profile
has level ≥ 1, experience ≥ 0 and strictly below `need(level) =
100 + level*20`, all six stats ≥ 0, and streak ≥ 0. -/
theorem c3_profile_invariants (log : List ActionEntry) (today : Nat) :
    1 ≤ (recompute_profile_from_actions log today).level ∧
    0 ≤ (recompute_profile_from_actions log today).exp ∧
    (recompute_profile_from_actions log today).exp <
      need_exp_for_next (recompute_profile_from_actions log today).level ∧
    (∀ k, 0 ≤ (recompute_profile_from_actions log today).stat k) ∧
    0 ≤ (recompute_profile_from_actions log today).streak := by
  unfold recompute_profile_from_actions
  by_cases hl : log.isEmpty
  · rw [if_pos hl]
    exact initProfile_inv today
  · rw [if_neg hl]
    have hw : InvP (walkProfile log today) :=
      walk_inv log _ _ (initProfile_inv today)
    obtain ⟨h1, h2, h3, h4, h5⟩ := hw
    have hdl := decayFold_level log today ACTION_TYPES (walkProfile log today)
    have hde := decayFold_exp log today ACTION_TYPES (walkProfile log today)
    have hds := decayFold_streak log today ACTION_TYPES (walkProfile log today)
    refine ⟨?_, ?_, ?_, ?_, ?_⟩
    · show 1 ≤ (decayPhase log today (walkProfile log today)).level
      unfold decayPhase
      omega
    · show 0 ≤ (decayPhase log today (walkProfile log today)).exp
      unfold decayPhase
      omega
    · show (decayPhase log today (walkProfile log today)).exp <
        need_exp_for_next (decayPhase log today (walkProfile log today)).level
      unfold decayPhase
      rw [hdl, hde]
      exact h3
    · intro k
      rw [stat_decayPhase]
      split
      · have := h4 k
        omega
      · exact h4 k
    · show 0 ≤ (decayPhase log today (walkProfile log today)).streak
      unfold decayPhase
      omega

/-! ### Streak characterization (claim C1 machinery) -/

theorem dayStep_streak (log : List ActionEntry) (p : Profile) (d : Nat) :
    (dayStep log p d).streak =
      if !(typesOn log d).isEmpty then p.streak + 1 else 0 := by
  by_cases hemp : (typesOn log d).isEmpty = true
  · simp only [dayStep]
    rw [if_pos hemp]
    simp [hemp]
  · simp only [dayStep]
    rw [if_neg hemp]
    show ((typesOn log d).foldl applyAction p).streak + 1 = _
    rw [foldActs_streak]
    simp [Bool.not_eq_true'] at hemp
    simp [hemp]

theorem walk_streak (log : List ActionEntry) (days : List Nat) :
    ∀ p : Profile,
      (days.foldl (dayStep log) p).streak =
        days.foldl (fun s d => if !(typesOn log d).isEmpty then s + 1 else 0)
          p.streak := by
  induction days with
  | nil => intro p; rfl
  | cons d days ih =>
      intro p
      rw [List.foldl_cons, List.foldl_cons, ih, dayStep_streak]

theorem streakFold_eq_takeWhile (Q : Nat → Bool) (days : List Nat) :
    ∀ s : Int, 0 ≤ s →
      days.foldl (fun s d => if Q d then s + 1 else 0) s =
        if ∀ d ∈ days, Q d = true then s + days.length
        else ((days.reverse.takeWhile Q).length : Int) := by
  induction days using List.reverseRecOn with
  | nil => intro s _; simp
  | append_singleton l a ih =>
      intro s hs
      rw [List.foldl_append, List.foldl_cons, List.foldl_nil]
      by_cases hQ : Q a = true
      · rw [if_pos hQ, ih s hs]
        by_cases hall : ∀ d ∈ l, Q d = true
        · rw [if_pos hall, if_pos]
          · simp
            omega
          · intro d hd
            rcases List.mem_append.mp hd with hd | hd
            · exact hall d hd
            · rw [List.mem_singleton.mp hd]; exact hQ
        · rw [if_neg hall, if_neg]
          · rw [List.reverse_append]
            simp [List.takeWhile_cons, hQ]
          · intro hcon
            exact hall fun d hd => hcon d (List.mem_append_left _ hd)
      · rw [if_neg hQ, if_neg, List.reverse_append]
        · simp [List.takeWhile_cons, hQ]
        · intro hcon
          exact hQ (hcon a (List.mem_append_right _ (List.mem_singleton_self a)))

theorem takeWhile_of_all (Q : Nat → Bool) (l : List Nat)
    (h : ∀ d ∈ l, Q d = true) : l.takeWhile Q = l := by
  induction l with
  | nil => rfl
  | cons a l ih =>
      rw [List.takeWhile_cons, if_pos (h a (List.mem_cons_self a l)),
        ih fun d hd => h d (List.mem_cons_of_mem a hd)]

/-- The concrete log of claim C1: entries on days 1, 2 and 3, a gap on
day 4, and an entry on day 5 (= today). -/
def c1Log : List ActionEntry :=
  [{ date := 1, kind := strength }, { date := 2, kind := stamina },
   { date := 3, kind := intelligence }, { date := 5, kind := wealth }]

/-- Claim C1: the full recompute walks every date from the earliest logged
date through today, incrementing the streak on days with at least one entry
and resetting it on gap days — so the returned streak counts exactly the
trailing run of consecutive active days ending at today; in particular, for
entries on days 1, 2, 3, a gap on day 4, and an entry on day 5 = today, the
streak is 1. -/
theorem c1_streak_day_walk :
    (∀ (log : List ActionEntry) (today : Nat), log ≠ [] →
      (recompute_profile_from_actions log today).streak =
        (((dayRange (startDate log) today).reverse.takeWhile
            (fun d => !(typesOn log d).isEmpty)).length : Int)) ∧
    (recompute_profile_from_actions c1Log 5).streak = 1 := by
  constructor
  · intro log today hne
    have hl : log.isEmpty = false := by
      cases log with
      | nil => exact absurd rfl hne
      | cons e rest => rfl
    unfold recompute_profile_from_actions
    rw [if_neg (by simp [hl]), decayPhase.eq_def, decayFold_streak,
      walkProfile.eq_def, walk_streak]
    rw [show (initProfile today).streak = 0 from rfl]
    rw [streakFold_eq_takeWhile _ _ 0 le_rfl]
    split
    · next hall =>
        rw [takeWhile_of_all _ _ fun d hd =>
          hall d (List.mem_reverse.mp hd)]
        simp
    · rfl
  · decide

/-- Witness for C1 at the concrete five-day log. -/
theorem c1_streak_day_walk_witness :
    (recompute_profile_from_actions c1Log 5).streak =
      (((dayRange (startDate c1Log) 5).reverse.takeWhile
          (fun d => !(typesOn c1Log d).isEmpty)).length : Int) :=
  c1_streak_day_walk.1 c1Log 5 (by decide)

/-! ### Incremental daily-check frame lemmas (claim C9 machinery) -/

@[simp]
theorem dailyStreakStep_level (log : List ActionEntry) (p : Profile) (d : Nat) :
    (dailyStreakStep log p d).level = p.level := by
  unfold dailyStreakStep
  by_cases h : did_anything_on log d <;> simp [h]

@[simp]
theorem dailyStreakStep_exp (log : List ActionEntry) (p : Profile) (d : Nat) :
    (dailyStreakStep log p d).exp = p.exp := by
  unfold dailyStreakStep
  by_cases h : did_anything_on log d <;> simp [h]

@[simp]
theorem dailyStreakStep_consistency (log : List ActionEntry) (p : Profile)
    (d : Nat) : (dailyStreakStep log p d).consistency = p.consistency := by
  unfold dailyStreakStep
  by_cases h : did_anything_on log d <;> simp [h]

theorem dailyFold_level (log : List ActionEntry) (days : List Nat) :
    ∀ p : Profile, ((days.foldl (dailyStreakStep log) p).level = p.level) := by
  induction days with
  | nil => intro p; rfl
  | cons d days ih => intro p; rw [List.foldl_cons, ih, dailyStreakStep_level]

theorem dailyFold_exp (log : List ActionEntry) (days : List Nat) :
    ∀ p : Profile, ((days.foldl (dailyStreakStep log) p).exp = p.exp) := by
  induction days with
  | nil => intro p; rfl
  | cons d days ih => intro p; rw [List.foldl_cons, ih, dailyStreakStep_exp]

theorem dailyFold_consistency (log : List ActionEntry) (days : List Nat) :
    ∀ p : Profile,
      ((days.foldl (dailyStreakStep log) p).consistency = p.consistency) := by
  induction days with
  | nil => intro p; rfl
  | cons d days ih =>
      intro p
      rw [List.foldl_cons, ih, dailyStreakStep_consistency]

/-- Claim C9: the incremental daily check never changes level, experience
or consistency (only streak, the five decayable stats and the
last-evaluated date may change), and when today is not after the profile's
last-evaluated date it returns the profile entirely unchanged. -/
theorem c9_daily_check_frame (log : List ActionEntry) (p : Profile)
    (current : Nat) :
    (handle_daily_check log p current).level = p.level ∧
    (handle_daily_check log p current).exp = p.exp ∧
    (handle_daily_check log p current).consistency = p.consistency ∧
    (current ≤ p.last_check_date → handle_daily_check log p current = p) := by
  by_cases h : current ≤ p.last_check_date
  · unfold handle_daily_check
    rw [if_pos h]
    exact ⟨rfl, rfl, rfl, fun _ => rfl⟩
  · unfold handle_daily_check
    rw [if_neg h]
    refine ⟨?_, ?_, ?_, fun hc => absurd hc h⟩
    · show (apply_weekly_decay log
        ((dayRange (p.last_check_date + 1) current).foldl (dailyStreakStep log) p)
        current).level = p.level
      rw [apply_weekly_decay.eq_def, decayPhase.eq_def, decayFold_level,
        dailyFold_level]
    · show (apply_weekly_decay log
        ((dayRange (p.last_check_date + 1) current).foldl (dailyStreakStep log) p)
        current).exp = p.exp
      rw [apply_weekly_decay.eq_def, decayPhase.eq_def, decayFold_exp,
        dailyFold_exp]
    · show (apply_weekly_decay log
        ((dayRange (p.last_check_date + 1) current).foldl (dailyStreakStep log) p)
        current).consistency = p.consistency
      rw [apply_weekly_decay.eq_def, decayPhase.eq_def,
        decayFold_consistency log current ACTION_TYPES (by decide),
        dailyFold_consistency]

/-- Witness for C9: a current date at or before the last-evaluated date
returns the cached profile unchanged. -/
theorem c9_daily_check_frame_witness :
    handle_daily_check [] (initProfile 5) 3 = initProfile 5 :=
  (c9_daily_check_frame [] (initProfile 5) 3).2.2.2 (by decide)

/-! ### Classification: head of the stable descending sort -/

/-- The first entry of maximal value in `x :: l` (ties prefer the earlier
entry), computed recursively. -/
def firstPeak : (StatKey × Int) → List (StatKey × Int) → (StatKey × Int)
  | x, [] => x
  | x, y :: ys => if (firstPeak y ys).2 ≤ x.2 then x else firstPeak y ys

theorem head_some_cons {α : Type} (l : List α) (a : α) (h : l.head? = some a) :
    ∃ t, l = a :: t := by
  cases l with
  | nil => simp at h
  | cons x t =>
      simp at h
      exact ⟨t, by rw [h]⟩

theorem insertionSort_head (l : List (StatKey × Int)) :
    ∀ x : StatKey × Int,
      ((x :: l).insertionSort (fun a b => b.2 ≤ a.2)).head? =
        some (firstPeak x l) := by
  induction l with
  | nil => intro x; rfl
  | cons y ys ih =>
      intro x
      obtain ⟨t, ht⟩ := head_some_cons _ _ (ih y)
      have hstep : (x :: y :: ys).insertionSort (fun a b => b.2 ≤ a.2) =
          List.orderedInsert (fun a b => b.2 ≤ a.2) x
            ((y :: ys).insertionSort (fun a b => b.2 ≤ a.2)) := rfl
      rw [hstep, ht]
      by_cases hc : (firstPeak y ys).2 ≤ x.2
      · rw [List.orderedInsert, if_pos hc]
        simp [firstPeak, hc]
      · rw [List.orderedInsert, if_neg hc]
        simp [firstPeak, hc]

theorem firstPeak_ge (l : List (StatKey × Int)) :
    ∀ x : StatKey × Int, ∀ a ∈ x :: l, a.2 ≤ (firstPeak x l).2 := by
  induction l with
  | nil =>
      intro x a ha
      rw [List.mem_singleton.mp ha]
      simp [firstPeak]
  | cons y ys ih =>
      intro x a ha
      rcases List.mem_cons.mp ha with rfl | hmem
      · by_cases hc : (firstPeak y ys).2 ≤ a.2
        · simp [firstPeak, hc]
        · simp only [firstPeak, if_neg hc]
          omega
      · have hy := ih y a hmem
        by_cases hc : (firstPeak y ys).2 ≤ x.2
        · simp only [firstPeak, if_pos hc]
          omega
        · simp only [firstPeak, if_neg hc]
          exact hy

theorem firstPeak_mem (l : List (StatKey × Int)) :
    ∀ x : StatKey × Int, firstPeak x l ∈ x :: l := by
  induction l with
  | nil => intro x; simp [firstPeak]
  | cons y ys ih =>
      intro x
      by_cases hc : (firstPeak y ys).2 ≤ x.2
      · simp [firstPeak, hc]
      · simp only [firstPeak, if_neg hc]
        exact List.mem_cons_of_mem x (ih y)

theorem find_firstPeak (l : List (StatKey × Int)) :
    ∀ x : StatKey × Int,
      (x :: l).find? (fun a => decide ((firstPeak x l).2 ≤ a.2)) =
        some (firstPeak x l) := by
  induction l with
  | nil =>
      intro x
      exact List.find?_cons_of_pos _ (by simp [firstPeak])
  | cons y ys ih =>
      intro x
      by_cases hc : (firstPeak y ys).2 ≤ x.2
      · have hF : firstPeak x (y :: ys) = x := by simp [firstPeak, hc]
        rw [hF]
        exact List.find?_cons_of_pos _ (by simp)
      · have hF : firstPeak x (y :: ys) = firstPeak y ys := by
          simp [firstPeak, hc]
        rw [hF]
        rw [List.find?_cons_of_neg _ (by simp; omega)]
        exact ih y

/-! ### Classification: maximum stat and canonical tie-break -/

/-- The maximum of the six stat values. -/
def maxStat (p : Profile) : Int :=
  max (max (max (max (max p.strength p.stamina) p.intelligence) p.wealth)
    p.discipline) p.consistency

/-- Specification-side tie-break: the first key in canonical `STAT_KEYS`
order whose value attains the maximum of the six stats. -/
def firstMaxKey (p : Profile) : StatKey :=
  (STAT_KEYS.find? (fun k => decide (maxStat p ≤ p.stat k))).getD
    StatKey.strength

/-- The head pair of `statPairs`. -/
def statHead (p : Profile) : StatKey × Int :=
  (StatKey.strength, p.stat StatKey.strength)

/-- The tail pairs of `statPairs`. -/
def statPairsTail (p : Profile) : List (StatKey × Int) :=
  [(StatKey.stamina, p.stat StatKey.stamina),
   (StatKey.intelligence, p.stat StatKey.intelligence),
   (StatKey.wealth, p.stat StatKey.wealth),
   (StatKey.discipline, p.stat StatKey.discipline),
   (StatKey.consistency, p.stat StatKey.consistency)]

theorem statPairs_eq (p : Profile) :
    statPairs p = statHead p :: statPairsTail p := rfl

theorem stat_le_maxStat (p : Profile) (k : StatKey) : p.stat k ≤ maxStat p := by
  cases k <;> simp [Profile.stat, maxStat]

theorem firstPeak_statPairs_val (p : Profile) :
    (firstPeak (statHead p) (statPairsTail p)).2 = maxStat p := by
  apply le_antisymm
  · have hmem := firstPeak_mem (statPairsTail p) (statHead p)
    simp only [statHead, statPairsTail]
    simp [statHead, statPairsTail] at hmem
    rcases hmem with h | h | h | h | h | h
    · rw [h]; exact stat_le_maxStat p StatKey.strength
    · rw [h]; exact stat_le_maxStat p StatKey.stamina
    · rw [h]; exact stat_le_maxStat p StatKey.intelligence
    · rw [h]; exact stat_le_maxStat p StatKey.wealth
    · rw [h]; exact stat_le_maxStat p StatKey.discipline
    · rw [h]; exact stat_le_maxStat p StatKey.consistency
  · have h1 := firstPeak_ge (statPairsTail p) (statHead p) (statHead p)
      (by simp)
    have h2 := firstPeak_ge (statPairsTail p) (statHead p)
      (StatKey.stamina, p.stat StatKey.stamina)
      (by simp [statPairsTail])
    have h3 := firstPeak_ge (statPairsTail p) (statHead p)
      (StatKey.intelligence, p.stat StatKey.intelligence)
      (by simp [statPairsTail])
    have h4 := firstPeak_ge (statPairsTail p) (statHead p)
      (StatKey.wealth, p.stat StatKey.wealth)
      (by simp [statPairsTail])
    have h5 := firstPeak_ge (statPairsTail p) (statHead p)
      (StatKey.discipline, p.stat StatKey.discipline)
      (by simp [statPairsTail])
    have h6 := firstPeak_ge (statPairsTail p) (statHead p)
      (StatKey.consistency, p.stat StatKey.consistency)
      (by simp [statPairsTail])
    simp only [statHead, Profile.stat] at h1 h2 h3 h4 h5 h6
    simp only [statHead, Profile.stat, maxStat]
    omega

theorem statRank_head (p : Profile) :
    (statRank p).head? = some (firstPeak (statHead p) (statPairsTail p)) := by
  unfold statRank
  rw [statPairs_eq]
  exact insertionSort_head _ _

/-- Claim C7: classification ranks the six stats descending with ties broken
by the canonical `STAT_KEYS` order — the base class is always the label of
the first key in canonical order attaining the maximal stat value, never an
arbitrary choice among tied stats. -/
theorem c7_classification_tie_break (p : Profile) :
    (compute_class_and_traits p).base_class = classLabel (firstMaxKey p) := by
  obtain ⟨t, ht⟩ := head_some_cons _ _ (statRank_head p)
  have hbase : (compute_class_and_traits p).base_class =
      classLabel ((statRank p).getD 0 (StatKey.strength, 0)).1 := rfl
  rw [hbase, ht, List.getD_cons_zero]
  congr 1
  have hv := firstPeak_statPairs_val p
  have hmap : ((STAT_KEYS.map (fun k => (k, p.stat k))).find?
      (fun a => decide ((firstPeak (statHead p) (statPairsTail p)).2 ≤ a.2)) =
      (STAT_KEYS.find?
        ((fun a => decide ((firstPeak (statHead p) (statPairsTail p)).2 ≤ a.2)) ∘
          (fun k => (k, p.stat k)))).map (fun k => (k, p.stat k))) :=
    List.find?_map _ _
  have h3 : (STAT_KEYS.find?
      (fun k => decide ((firstPeak (statHead p) (statPairsTail p)).2 ≤
        p.stat k))).map (fun k => (k, p.stat k)) =
      some (firstPeak (statHead p) (statPairsTail p)) :=
    hmap.symm.trans (find_firstPeak (statPairsTail p) (statHead p))
  cases hfind : STAT_KEYS.find?
      (fun k => decide ((firstPeak (statHead p) (statPairsTail p)).2 ≤
        p.stat k)) with
  | none => rw [hfind] at h3; simp at h3
  | some k0 =>
      rw [hfind] at h3
      simp only [Option.map_some'] at h3
      have hpair : (k0, p.stat k0) = firstPeak (statHead p) (statPairsTail p) :=
        Option.some.inj h3
      have hQ : (fun k => decide (maxStat p ≤ p.stat k)) =
          (fun k => decide ((firstPeak (statHead p) (statPairsTail p)).2 ≤
            p.stat k)) := by rw [hv]
      unfold firstMaxKey
      rw [hQ, hfind, ← hpair]
      rfl

/-! ### Trait activation (claim C8) -/

theorem statRank_getD0_val (p : Profile) :
    ((statRank p).getD 0 (StatKey.strength, 0)).2 = maxStat p := by
  obtain ⟨t, ht⟩ := head_some_cons _ _ (statRank_head p)
  rw [ht, List.getD_cons_zero]
  exact firstPeak_statPairs_val p

/-- The boundary profile of claim C8 with top1 = 10 (strength) and
top2 = 7 (stamina). -/
def c8ProfileA : Profile :=
  { level := 1, exp := 0, strength := 10, stamina := 7, intelligence := 0,
    wealth := 0, discipline := 0, consistency := 0, streak := 0,
    last_check_date := 0 }

/-- The boundary profile of claim C8 with top1 = 10 and top2 = 6. -/
def c8ProfileB : Profile :=
  { c8ProfileA with stamina := 6 }

/-- A profile exercising the float threshold away from the exact-arithmetic
value: top1 = 90 (18 strength entries), top2 = 62 (stamina), where
`int(90 * 0.7) = 62` in the source although `7 * 90 / 10 = 63`. -/
def c8ProfileC : Profile :=
  { c8ProfileA with strength := 90, stamina := 62 }

/-- Claim C8: the secondary trait is active exactly when the top stat value
is positive and the second-ranked value reaches the truncated 70% threshold
`int(top1 * 0.7)`, modelled bit-exactly by `float07`; at the boundary,
top1 = 10 with top2 = 7 activates the trait (`float07 10 = 7`) while
top2 = 6 leaves it inactive.  The last conjuncts pin the IEEE-double
semantics of the threshold: `float07 90 = 62` and `float07 170 = 118`
(exact rational truncation would give 63 and 119), and at top1 = 90 a
second stat of 62 already activates the trait, as in the source. -/
theorem c8_trait_activation :
    (∀ p : Profile,
      ((compute_class_and_traits p).trait.isSome ↔
        0 < maxStat p ∧
          (float07 (maxStat p).toNat : Int) ≤
            ((statRank p).getD 1 (StatKey.strength, 0)).2)) ∧
    (compute_class_and_traits c8ProfileA).trait = some "러너" ∧
    (compute_class_and_traits c8ProfileB).trait = none ∧
    float07 10 = 7 ∧ float07 90 = 62 ∧ float07 170 = 118 ∧
    (compute_class_and_traits c8ProfileC).trait = some "러너" := by
  refine ⟨?_, by decide, by decide, by decide, by decide, by decide, by decide⟩
  intro p
  rw [← statRank_getD0_val p]
  show (if 0 < ((statRank p).getD 0 (StatKey.strength, 0)).2 ∧
      (float07 ((statRank p).getD 0 (StatKey.strength, 0)).2.toNat : Int) ≤
        ((statRank p).getD 1 (StatKey.strength, 0)).2
    then some (classLabel ((statRank p).getD 1 (StatKey.strength, 0)).1)
    else none).isSome ↔ _
  split_ifs with hc
  · simpa using hc
  · simpa using hc

/-! ### Trait and base class never coincide (claim C10) -/

theorem classLabel_inj : ∀ k1 k2 : StatKey, classLabel k1 = classLabel k2 →
    k1 = k2 := by decide

theorem statRank_length (p : Profile) : (statRank p).length = 6 := by
  have h := (List.perm_insertionSort (fun a b : StatKey × Int => b.2 ≤ a.2)
    (statPairs p)).length_eq
  unfold statRank
  rw [h]
  rfl

theorem statRank_keys_nodup (p : Profile) :
    ((statRank p).map Prod.fst).Nodup := by
  have hperm := (List.perm_insertionSort (fun a b : StatKey × Int => b.2 ≤ a.2)
    (statPairs p)).map Prod.fst
  refine hperm.nodup_iff.mpr ?_
  have : (statPairs p).map Prod.fst = STAT_KEYS := by
    simp [statPairs, List.map_map]
    rfl
  rw [this]
  decide

theorem statRank_two (p : Profile) :
    ∃ a b t2, statRank p = a :: b :: t2 := by
  have hlen := statRank_length p
  cases h : statRank p with
  | nil => rw [h] at hlen; simp at hlen
  | cons a rest =>
      cases h2 : rest with
      | nil => rw [h, h2] at hlen; simp at hlen
      | cons b t2 =>
          subst h2
          exact ⟨a, b, t2, rfl⟩

/-- Claim C10 (implicit): whenever classification returns a secondary trait,
its label differs from the base-class label — the first- and second-ranked
keys are distinct (the ranking is a permutation of the six distinct keys)
and the label table is injective. -/
theorem c10_trait_ne_base (p : Profile) (s : String)
    (h : (compute_class_and_traits p).trait = some s) :
    s ≠ (compute_class_and_traits p).base_class := by
  obtain ⟨a, b, t2, hab⟩ := statRank_two p
  have hnd := statRank_keys_nodup p
  rw [hab] at hnd
  simp at hnd
  have hne : b.1 ≠ a.1 := fun hc => hnd.1.1 hc.symm
  have htr : (compute_class_and_traits p).trait =
      if 0 < a.2 ∧ (float07 a.2.toNat : Int) ≤ b.2 then some (classLabel b.1)
      else none := by
    show (if 0 < ((statRank p).getD 0 (StatKey.strength, 0)).2 ∧
        (float07 ((statRank p).getD 0 (StatKey.strength, 0)).2.toNat : Int) ≤
          ((statRank p).getD 1 (StatKey.strength, 0)).2
      then some (classLabel ((statRank p).getD 1 (StatKey.strength, 0)).1)
      else none) = _
    rw [hab]
    rfl
  have hbase : (compute_class_and_traits p).base_class = classLabel a.1 := by
    show classLabel ((statRank p).getD 0 (StatKey.strength, 0)).1 = _
    rw [hab, List.getD_cons_zero]
  rw [htr] at h
  by_cases hcond : 0 < a.2 ∧ (float07 a.2.toNat : Int) ≤ b.2
  · rw [if_pos hcond] at h
    have hs : s = classLabel b.1 := (Option.some.inj h).symm
    rw [hs, hbase]
    intro heq
    exact hne (classLabel_inj b.1 a.1 heq)
  · rw [if_neg hcond] at h
    cases h

/-- Witness for C10 at a profile with an active trait: the trait label
differs from the base class. -/
theorem c10_trait_ne_base_witness :
    ("러너" : String) ≠ (compute_class_and_traits c8ProfileA).base_class :=
  c10_trait_ne_base c8ProfileA "러너" (by decide)

/-! ### Deferred normalization (claim C4 machinery) -/

/-- Run the level-up loop once on a profile's `(level, exp)` pair, leaving
every other field unchanged. -/
def normAt (q : Profile) : Profile :=
  { q with level := (normalizeLevel q.level q.exp).1,
           exp := (normalizeLevel q.level q.exp).2 }

/-- The day-walk body without the per-day level-up loop (the "defer
normalization to the end" evaluation strategy of the claim). -/
def dayStepNoNorm (log : List ActionEntry) (p : Profile) (d : Nat) : Profile :=
  let types := typesOn log d
  let p1 := types.foldl applyAction p
  if types.isEmpty then { p1 with streak := 0 }
  else
    let pa := { p1 with consistency := p1.consistency + CONSISTENCY_PER_DAY,
                        streak := p1.streak + 1 }
    { pa with exp := pa.exp + streak_bonus_exp pa.streak }

theorem dayStep_eq_noNorm (log : List ActionEntry) (p : Profile) (d : Nat) :
    dayStep log p d = normAt (dayStepNoNorm log p d) := rfl

theorem applyAction_mod (r : Profile) (l e : Int) (t : StatKey) :
    applyAction { r with level := l, exp := e } t =
      { applyAction r t with
          level := l
          exp := (applyAction r t).exp - r.exp + e } := by
  cases t <;>
    (apply Profile.ext <;>
      simp [applyAction, GAIN, Profile.setStat, Profile.stat,
        EXP_PER_ACTION] <;> ring)

theorem foldActs_mod (ts : List StatKey) :
    ∀ (r : Profile) (l e : Int),
      ts.foldl applyAction { r with level := l, exp := e } =
        { ts.foldl applyAction r with
            level := l
            exp := (ts.foldl applyAction r).exp - r.exp + e } := by
  induction ts with
  | nil =>
      intro r l e
      apply Profile.ext <;> simp
  | cons t ts ih =>
      intro r l e
      rw [List.foldl_cons, List.foldl_cons, applyAction_mod,
        ih (applyAction r t) l ((applyAction r t).exp - r.exp + e)]
      apply Profile.ext <;> simp <;> ring

theorem dayStepNoNorm_level (log : List ActionEntry) (p : Profile) (d : Nat) :
    (dayStepNoNorm log p d).level = p.level := by
  unfold dayStepNoNorm
  by_cases hemp : (typesOn log d).isEmpty = true
  · rw [if_pos hemp]
    show ((typesOn log d).foldl applyAction p).level = p.level
    exact foldActs_level _ p
  · rw [if_neg hemp]
    show ((typesOn log d).foldl applyAction p).level = p.level
    exact foldActs_level _ p

theorem dayStepNoNorm_exp_ge (log : List ActionEntry) (p : Profile) (d : Nat) :
    p.exp ≤ (dayStepNoNorm log p d).exp := by
  unfold dayStepNoNorm
  have hf := foldActs_exp_ge (typesOn log d) p
  by_cases hemp : (typesOn log d).isEmpty = true
  · rw [if_pos hemp]
    exact hf
  · rw [if_neg hemp]
    have hb := streak_bonus_nonneg
      (((typesOn log d).foldl applyAction p).streak + 1)
    show p.exp ≤ ((typesOn log d).foldl applyAction p).exp +
      streak_bonus_exp (((typesOn log d).foldl applyAction p).streak + 1)
    omega

theorem dayStepNoNorm_mod (log : List ActionEntry) (d : Nat) (r : Profile)
    (l e : Int) :
    dayStepNoNorm log { r with level := l, exp := e } d =
      { dayStepNoNorm log r d with
          level := l
          exp := (dayStepNoNorm log r d).exp - r.exp + e } := by
  unfold dayStepNoNorm
  by_cases hemp : (typesOn log d).isEmpty = true
  · rw [if_pos hemp, if_pos hemp, foldActs_mod]
  · rw [if_neg hemp, if_neg hemp, foldActs_mod]
    apply Profile.ext <;> simp <;> ring

theorem foldNoNorm_mod (log : List ActionEntry) (days : List Nat) :
    ∀ (r : Profile) (l e : Int),
      days.foldl (dayStepNoNorm log) { r with level := l, exp := e } =
        { days.foldl (dayStepNoNorm log) r with
            level := l
            exp := (days.foldl (dayStepNoNorm log) r).exp - r.exp + e } := by
  induction days with
  | nil =>
      intro r l e
      apply Profile.ext <;> simp
  | cons d days ih =>
      intro r l e
      rw [List.foldl_cons, List.foldl_cons, dayStepNoNorm_mod,
        ih (dayStepNoNorm log r d) l ((dayStepNoNorm log r d).exp - r.exp + e)]
      apply Profile.ext <;> simp <;> ring

theorem foldNoNorm_level (log : List ActionEntry) (days : List Nat) :
    ∀ p : Profile, (days.foldl (dayStepNoNorm log) p).level = p.level := by
  induction days with
  | nil => intro p; rfl
  | cons d days ih =>
      intro p
      rw [List.foldl_cons, ih, dayStepNoNorm_level]

theorem foldNoNorm_exp_ge (log : List ActionEntry) (days : List Nat) :
    ∀ p : Profile, p.exp ≤ (days.foldl (dayStepNoNorm log) p).exp := by
  induction days with
  | nil => intro p; exact le_refl _
  | cons d days ih =>
      intro p
      exact le_trans (dayStepNoNorm_exp_ge log p d) (ih (dayStepNoNorm log p d))

theorem normalize_add_fuel (n : Nat) :
    ∀ l e d : Int, 1 ≤ l → 0 ≤ e → 0 ≤ d → e.toNat ≤ n →
      normalizeLevel l (e + d) =
        normalizeLevel (normalizeLevel l e).1 ((normalizeLevel l e).2 + d) := by
  induction n with
  | zero =>
      intro l e d h1 h2 h3 hn
      have he : e = 0 := by omega
      subst he
      rw [normalizeLevel_of_lt l 0 h1 (by unfold need_exp_for_next; omega)]
  | succ m ih =>
      intro l e d h1 h2 h3 hn
      by_cases hc : need_exp_for_next l ≤ e
      · have h120 : (120 : Int) ≤ e := by
          unfold need_exp_for_next at hc
          omega
        rw [normalizeLevel_unfold l e h1, if_pos hc,
          normalizeLevel_unfold l (e + d) h1, if_pos (by omega)]
        have harr : e + d - need_exp_for_next l =
            (e - need_exp_for_next l) + d := by ring
        rw [harr]
        refine ih (l + 1) (e - need_exp_for_next l) d (by omega) ?_ h3 ?_
        · unfold need_exp_for_next at hc ⊢
          omega
        · unfold need_exp_for_next at hc ⊢
          omega
      · rw [normalizeLevel_of_lt l e h1 (by omega)]

theorem normalize_add (l e d : Int) (h1 : 1 ≤ l) (h2 : 0 ≤ e) (h3 : 0 ≤ d) :
    normalizeLevel l (e + d) =
      normalizeLevel (normalizeLevel l e).1 ((normalizeLevel l e).2 + d) :=
  normalize_add_fuel e.toNat l e d h1 h2 h3 (le_refl _)

theorem walk_defer (log : List ActionEntry) (days : List Nat) :
    ∀ p : Profile, 1 ≤ p.level → 0 ≤ p.exp →
      p.exp < need_exp_for_next p.level →
      days.foldl (dayStep log) p = normAt (days.foldl (dayStepNoNorm log) p) := by
  induction days with
  | nil =>
      intro p h1 h2 h3
      show p = normAt p
      unfold normAt
      rw [normalizeLevel_of_lt p.level p.exp h1 h3]
  | cons d rest ih =>
      intro p h1 h2 h3
      rw [List.foldl_cons, List.foldl_cons, dayStep_eq_noNorm]
      have hBlev : (dayStepNoNorm log p d).level = p.level :=
        dayStepNoNorm_level log p d
      have hBexp : p.exp ≤ (dayStepNoNorm log p d).exp :=
        dayStepNoNorm_exp_ge log p d
      have h1' : 1 ≤ (normAt (dayStepNoNorm log p d)).level := by
        show 1 ≤ (normalizeLevel (dayStepNoNorm log p d).level
          (dayStepNoNorm log p d).exp).1
        exact le_trans (by omega) (normalizeLevel_level_le _ _)
      have h2' : 0 ≤ (normAt (dayStepNoNorm log p d)).exp := by
        show 0 ≤ (normalizeLevel (dayStepNoNorm log p d).level
          (dayStepNoNorm log p d).exp).2
        exact normalizeLevel_exp_nonneg _ _ (by omega)
      have h3' : (normAt (dayStepNoNorm log p d)).exp <
          need_exp_for_next (normAt (dayStepNoNorm log p d)).level := by
        show (normalizeLevel (dayStepNoNorm log p d).level
            (dayStepNoNorm log p d).exp).2 <
          need_exp_for_next (normalizeLevel (dayStepNoNorm log p d).level
            (dayStepNoNorm log p d).exp).1
        exact normalizeLevel_terminal _ _ (by omega)
      rw [ih (normAt (dayStepNoNorm log p d)) h1' h2' h3']
      have hmod : rest.foldl (dayStepNoNorm log) (normAt (dayStepNoNorm log p d)) =
          { rest.foldl (dayStepNoNorm log) (dayStepNoNorm log p d) with
              level := (normalizeLevel (dayStepNoNorm log p d).level
                (dayStepNoNorm log p d).exp).1
              exp := (rest.foldl (dayStepNoNorm log) (dayStepNoNorm log p d)).exp -
                (dayStepNoNorm log p d).exp +
                (normalizeLevel (dayStepNoNorm log p d).level
                  (dayStepNoNorm log p d).exp).2 } :=
        foldNoNorm_mod log rest (dayStepNoNorm log p d) _ _
      rw [hmod]
      have hQlev : (rest.foldl (dayStepNoNorm log) (dayStepNoNorm log p d)).level =
          p.level := by
        rw [foldNoNorm_level, hBlev]
      have hQexp : (dayStepNoNorm log p d).exp ≤
          (rest.foldl (dayStepNoNorm log) (dayStepNoNorm log p d)).exp :=
        foldNoNorm_exp_ge log rest (dayStepNoNorm log p d)
      have hadd := normalize_add (dayStepNoNorm log p d).level
        (dayStepNoNorm log p d).exp
        ((rest.foldl (dayStepNoNorm log) (dayStepNoNorm log p d)).exp -
          (dayStepNoNorm log p d).exp)
        (by omega) (by omega) (by omega)
      have hadd2 : normalizeLevel
          (normalizeLevel (dayStepNoNorm log p d).level
            (dayStepNoNorm log p d).exp).1
          ((rest.foldl (dayStepNoNorm log) (dayStepNoNorm log p d)).exp -
            (dayStepNoNorm log p d).exp +
            (normalizeLevel (dayStepNoNorm log p d).level
              (dayStepNoNorm log p d).exp).2) =
          normalizeLevel (dayStepNoNorm log p d).level
            (rest.foldl (dayStepNoNorm log) (dayStepNoNorm log p d)).exp := by
        rw [show (rest.foldl (dayStepNoNorm log) (dayStepNoNorm log p d)).exp -
              (dayStepNoNorm log p d).exp +
              (normalizeLevel (dayStepNoNorm log p d).level
                (dayStepNoNorm log p d).exp).2 =
            (normalizeLevel (dayStepNoNorm log p d).level
              (dayStepNoNorm log p d).exp).2 +
              ((rest.foldl (dayStepNoNorm log) (dayStepNoNorm log p d)).exp -
                (dayStepNoNorm log p d).exp) from by ring, ← hadd]
        congr 1
        ring
      unfold normAt
      apply Profile.ext <;> simp <;> rw [hQlev, ← hBlev] <;> rw [hadd2]

/-- The "deferred" evaluation strategy of claim C4: run the whole day-walk
without the per-day level-up loop, then normalize `(level, exp)` once at
the end. -/
def recompute_deferred (log : List ActionEntry) (today : Nat) : Profile :=
  if log.isEmpty then initProfile today
  else
    decayPhase log today
      (normAt ((dayRange (startDate log) today).foldl (dayStepNoNorm log)
        (initProfile today)))

/-- Claim C4: running the level normalization loop at the end of every
simulated day produces the same profile as accumulating all per-day
experience and normalizing once at the end of the walk — the two
evaluation strategies agree for every log and today. -/
theorem c4_deferred_normalization_equiv (log : List ActionEntry) (today : Nat) :
    recompute_profile_from_actions log today = recompute_deferred log today := by
  unfold recompute_profile_from_actions recompute_deferred
  by_cases hl : log.isEmpty
  · rw [if_pos hl, if_pos hl]
  · rw [if_neg hl, if_neg hl]
    congr 1
    unfold walkProfile
    exact walk_defer log _ (initProfile today) (by norm_num [initProfile])
      (by norm_num [initProfile])
      (by norm_num [initProfile, need_exp_for_next])
